import Mathlib

/-!
Shallow embedding of the subnet-calculation core (`subnet-utils`) of the
subnet-lab repository, together with theorems checking the specification's
claims about it.

JavaScript strings are modelled as `List Char` (`JStr`); the exceptions the
source throws are modelled as the error kinds of the spec's taxonomy, via
`Except Err`.  JavaScript numbers reaching the core are integers or `NaN`;
they are modelled as `Int` (and as `Option Int` where `NaN` is reachable,
with `none` playing the role of `NaN`).
-/

namespace SubnetLab

abbrev JStr := List Char

/-- Abbreviation for building a `JStr` from a string literal. -/
def jstr (s : String) : JStr := s.data

/-- Error kinds of the spec's taxonomy (the source throws `Error` objects
with free-text messages; each throw site maps to exactly one kind). -/
inductive Err where
  | InvalidAddress
  | InvalidMask
  | InvalidCidr
  | InvalidFormat
  | AddressSpaceExhausted
  | OutOfRange
deriving DecidableEq, Repr

/-- The `SubnetInfo` record returned by `calculateSubnet`. -/
structure SubnetInfo where
  networkAddress : JStr
  broadcastAddress : JStr
  firstHost : JStr
  lastHost : JStr
  totalHosts : Nat
  usableHosts : Nat
  subnetMask : JStr
  wildcardMask : JStr
  binaryIP : JStr
  binaryMask : JStr
deriving DecidableEq, Repr

deriving instance DecidableEq for Except

/-! ### String primitives used by the source

`splitOnDot` models `String.prototype.split('.')` (empty pieces are kept),
`joinDot` models `Array.prototype.join('.')`. -/

def splitOnDot : JStr → List JStr
  | [] => [[]]
  | c :: cs =>
    if c = '.' then [] :: splitOnDot cs
    else
      match splitOnDot cs with
      | [] => [[c]]
      | p :: ps => (c :: p) :: ps

def joinDot : List JStr → JStr
  | [] => []
  | [p] => p
  | p :: ps => p ++ '.' :: joinDot ps

/-- The digit test of the regex class `\d`. -/
def isDig (c : Char) : Bool := 48 ≤ c.toNat && c.toNat ≤ 57

def digitVal (c : Char) : Nat := c.toNat - 48

/-- Numeric value of an all-digit group (what `Number`/`parseInt` yield on
such a group). -/
def decVal (p : JStr) : Nat := p.foldl (fun a c => a * 10 + digitVal c) 0

def digitChar (d : Nat) : Char := Char.ofNat (48 + d)

def natToDecAux : Nat → Nat → JStr
  | 0, _ => []
  | fuel + 1, n => if n = 0 then [] else natToDecAux fuel (n / 10) ++ [digitChar (n % 10)]

/-- `Number.prototype.toString()` (base 10) for the natural numbers the core
produces; the fuel of 16 digits covers every value below `10 ^ 16`, far
beyond the 32-bit range the source works in. -/
def natToDec (n : Nat) : JStr := if n = 0 then ['0'] else natToDecAux 16 n

/-- Whitespace skipped by `parseInt`. -/
def isJsSpace (c : Char) : Bool :=
  c = ' ' || c = '\t' || c = '\n' || c = '\r' || c = '\x0b' || c = '\x0c'

def radixDigit (radix : Nat) (c : Char) : Bool := isDig c && digitVal c < radix

def parseDigits (radix : Nat) (s : JStr) : Option Nat :=
  let ds := s.takeWhile (radixDigit radix)
  if ds.isEmpty then none
  else some (ds.foldl (fun a c => a * radix + digitVal c) 0)

/-- JavaScript `parseInt(s, radix)` for radix ≤ 10: skip leading whitespace,
an optional sign, then the longest run of digits of the radix; `NaN` (no
digits at all) is `none`. -/
def jsParseInt (radix : Nat) (s : JStr) : Option Int :=
  match s.dropWhile isJsSpace with
  | '-' :: r => (parseDigits radix r).map (fun n => -(n : Int))
  | '+' :: r => (parseDigits radix r).map (fun n => (n : Int))
  | r => (parseDigits radix r).map (fun n => (n : Int))

/-! ### `validateIP` -/

/-- One group of the regex `^(\d{1,3})\.(\d{1,3})\.(\d{1,3})\.(\d{1,3})$`. -/
def isDigitGroup (p : JStr) : Bool :=
  decide (1 ≤ p.length) && decide (p.length ≤ 3) && p.all isDig

/-- `validateIP`: the anchored four-group regex match plus the range check
`octet >= 0 && octet <= 255` (the lower bound is vacuous over `Nat`). -/
def validateIP (ip : JStr) : Bool :=
  let parts := splitOnDot ip
  decide (parts.length = 4) && parts.all isDigitGroup &&
    parts.all (fun p => decide (decVal p ≤ 255))

/-! ### Binary codec -/

/-- `i`-th bit of `n`, as a character. -/
def bitChar (n i : Nat) : Char := if n / 2 ^ i % 2 = 1 then '1' else '0'

/-- `parseInt(octet, 10).toString(2).padStart(8, '0')` for octets in
`[0, 255]` (every call site is behind `validateIP`). -/
def toBin8 (n : Nat) : JStr :=
  [bitChar n 7, bitChar n 6, bitChar n 5, bitChar n 4,
   bitChar n 3, bitChar n 2, bitChar n 1, bitChar n 0]

/-- The 32 bits of a validated IP string with the dots removed
(`ipToBinary(ip).replace(/\./g, '')`). -/
def ipBits (ip : JStr) : JStr :=
  ((splitOnDot ip).map (fun p => toBin8 (decVal p))).flatten

def ipToBinary (ip : JStr) : Except Err JStr :=
  if validateIP ip then
    .ok (joinDot ((splitOnDot ip).map (fun p => toBin8 (decVal p))))
  else .error .InvalidAddress

def isBit (c : Char) : Bool := c = '0' || c = '1'

/-- Consume the optional dot of one regex iteration. -/
def dropLeadDot : JStr → JStr
  | '.' :: r => r
  | r => r

/-- One iteration of the regex `^([01]{8}\.?){4}$`: eight binary digits
followed by an optional dot.  Since `[01]` cannot match a dot, the greedy
match of this regex is deterministic and this function models it exactly. -/
def eatGroup (s : JStr) : Option JStr :=
  if (s.take 8).length = 8 && (s.take 8).all isBit then
    some (dropLeadDot (s.drop 8))
  else none

/-- Whole-string test of `^([01]{8}\.?){4}$`. -/
def binShape (s : JStr) : Bool :=
  ((((eatGroup s).bind eatGroup).bind eatGroup).bind eatGroup) = some []

/-- `parseInt(octet, 2).toString()`.  A `NaN` result (possible for the empty
group produced by a trailing dot) renders as the string `NaN`; groups of an
accepted shape never carry a sign, so the parsed value is never negative. -/
def binGroupToDec (g : JStr) : JStr :=
  match jsParseInt 2 g with
  | some v => natToDec v.toNat
  | none => ['N', 'a', 'N']

def binaryToIp (binary : JStr) : Except Err JStr :=
  if binShape binary then
    .ok (joinDot ((splitOnDot binary).map binGroupToDec))
  else .error .InvalidFormat

/-! ### Mask validation and CIDR conversion -/

/-- The regex `^1*0*$`: a run of 1s followed by a run of 0s. -/
def onesThenZeros (l : JStr) : Bool := (l.dropWhile (· = '1')).all (· = '0')

def validateSubnetMask (mask : JStr) : Bool :=
  match mask with
  | '/' :: rest =>
    match jsParseInt 10 rest with
    | none => false
    | some c => decide (0 ≤ c) && decide (c ≤ 32)
  | _ =>
    if validateIP mask then
      let binary := ipBits mask
      binary.all isBit && onesThenZeros binary && decide (binary.length = 32)
    else false

/-- Octet value from its leading-ones count: `bits === 0 ? 0 : 256 - 2^(8-bits)`. -/
def octetOfBits (bits : Nat) : Nat :=
  if bits = 0 then 0 else 256 - 2 ^ (8 - bits)

/-- The four octet values built by the `cidrToMask` loop:
`Math.min(8, Math.max(0, cidr - i*8))` leading ones in octet `i`. -/
def maskOctets (cidr : Int) : List Nat :=
  (List.range 4).map (fun i => octetOfBits (min 8 (max 0 (cidr - 8 * (i : Int)))).toNat)

/-- `cidrToMask`; the argument is a JS number, `none` standing for `NaN`. -/
def cidrToMask : Option Int → Except Err JStr
  | none => .error .OutOfRange
  | some cidr =>
    if cidr < 0 ∨ 32 < cidr then .error .OutOfRange
    else .ok (joinDot ((maskOctets cidr).map natToDec))

def maskToCidr (mask : JStr) : Except Err Nat :=
  if validateSubnetMask mask then
    match ipToBinary mask with
    | .ok b => .ok (b.count '1')
    | .error e => .error e
  else .error .InvalidMask

/-! ### Wildcard mask and bitwise algebra -/

/-- `(255 - parseInt(octet, 10)).toString()`.  After validation every octet
value is at most 255, so the subtraction never goes negative; a `NaN` parse
renders as `NaN`. -/
def wildcardOctet (p : JStr) : JStr :=
  match jsParseInt 10 p with
  | some v => natToDec (255 - v).toNat
  | none => ['N', 'a', 'N']

def getWildcardMask (subnetMask : JStr) : Except Err JStr :=
  if validateSubnetMask subnetMask then
    .ok (joinDot ((splitOnDot subnetMask).map wildcardOctet))
  else .error .InvalidMask

/-- `ToInt32(Number(p))` restricted to the strings the core can feed it:
an all-digit group keeps its value, anything else (`NaN` after coercion,
or a missing array entry) becomes 0.  Exotic numeric shapes (`0x..`,
exponents) never flow into the bitwise helpers: their results are only
consumed after the operands passed validation. -/
def toNum (p : JStr) : Nat := if !p.isEmpty && p.all isDig then decVal p else 0

/-- `bitwiseAnd` — the source applies it before any mask validation and
performs none itself. -/
def bitwiseAnd (ip1 ip2 : JStr) : JStr :=
  let o1 := (splitOnDot ip1).map toNum
  let o2 := (splitOnDot ip2).map toNum
  joinDot ((List.range o1.length).map (fun i => natToDec (o1.getD i 0 &&& o2.getD i 0)))

def bitwiseOr (ip1 ip2 : JStr) : Except Err JStr :=
  if validateIP ip1 && validateIP ip2 then
    let o1 := (splitOnDot ip1).map toNum
    let o2 := (splitOnDot ip2).map toNum
    .ok (joinDot ((List.range o1.length).map (fun i => natToDec (o1.getD i 0 ||| o2.getD i 0))))
  else .error .InvalidAddress

/-! ### Increment / decrement -/

/-- The carry loop of `incrementIp`, over the octets in right-to-left order;
`none` is the overflow throw when the carry passes the first octet. -/
def incCarry : List Nat → Option (List Nat)
  | [] => none
  | o :: rest => if o < 255 then some ((o + 1) :: rest) else (incCarry rest).map (fun l => 0 :: l)

def incrementIp (ip : JStr) : Except Err JStr :=
  if validateIP ip then
    let octets := (splitOnDot ip).map decVal
    match incCarry octets.reverse with
    | some l => .ok (joinDot (l.reverse.map natToDec))
    | none => .error .AddressSpaceExhausted
  else .error .InvalidAddress

/-- The borrow loop of `decrementIp`, over the octets in right-to-left
order (total: the all-zero case is rejected before the loop runs). -/
def decBorrow : List Nat → List Nat
  | [] => []
  | o :: rest => if 0 < o then (o - 1) :: rest else 255 :: decBorrow rest

def decrementIp (ip : JStr) : Except Err JStr :=
  if validateIP ip then
    let octets := (splitOnDot ip).map decVal
    if octets.all (· = 0) then .error .AddressSpaceExhausted
    else .ok (joinDot ((decBorrow octets.reverse).reverse.map natToDec))
  else .error .InvalidAddress

/-! ### The orchestrator -/

/-- The CIDR-to-mask conversion step at the top of `calculateSubnet`:
strings starting with `/` are parsed and converted, everything else passes
through untouched. -/
def convertMask (subnetMask : JStr) : Except Err JStr :=
  match subnetMask with
  | '/' :: rest =>
    match jsParseInt 10 rest with
    | none => .error .InvalidCidr
    | some cidr =>
      if cidr < 0 ∨ 32 < cidr then .error .InvalidCidr
      else cidrToMask (some cidr)
  | _ => .ok subnetMask

/-- `calculateSubnet`, step for step in source order, including the
recomputation of network/broadcast inside the `try` block and the
computation of first/last host before the `cidr >= 31` override. -/
def calculateSubnet (ipAddress subnetMask : JStr) : Except Err SubnetInfo :=
  if !validateIP ipAddress then .error .InvalidAddress
  else match convertMask subnetMask with
  | .error e => .error e
  | .ok mask =>
    let networkAddress0 := bitwiseAnd ipAddress mask
    match getWildcardMask mask with
    | .error e => .error e
    | .ok wildcardMask0 =>
      match bitwiseOr networkAddress0 wildcardMask0 with
      | .error e => .error e
      | .ok _broadcastAddress0 =>
        if !validateSubnetMask mask then .error .InvalidMask
        else match ipToBinary ipAddress with
        | .error e => .error e
        | .ok binaryIP =>
          match ipToBinary mask with
          | .error e => .error e
          | .ok binaryMask =>
            let networkAddress := bitwiseAnd ipAddress mask
            match getWildcardMask mask with
            | .error e => .error e
            | .ok wildcard =>
              match bitwiseOr networkAddress wildcard with
              | .error e => .error e
              | .ok broadcastAddress =>
                match incrementIp networkAddress with
                | .error e => .error e
                | .ok firstHost0 =>
                  match decrementIp broadcastAddress with
                  | .error e => .error e
                  | .ok lastHost0 =>
                    match maskToCidr mask with
                    | .error e => .error e
                    | .ok cidr =>
                      let firstHost := if 31 ≤ cidr then networkAddress else firstHost0
                      let lastHost := if 31 ≤ cidr then broadcastAddress else lastHost0
                      let totalHosts := 2 ^ (32 - cidr)
                      let usableHosts0 := totalHosts - 2
                      let usableHosts := if 31 ≤ cidr then totalHosts else usableHosts0
                      .ok { networkAddress := networkAddress
                            broadcastAddress := broadcastAddress
                            firstHost := firstHost
                            lastHost := lastHost
                            totalHosts := totalHosts
                            usableHosts := usableHosts
                            subnetMask := mask
                            wildcardMask := wildcard
                            binaryIP := binaryIP
                            binaryMask := binaryMask }


/-! ### Definitions used to state the claims -/

/-- Canonical dotted form: every dot-group is the decimal rendering of its
own numeric value (in particular, no leading zeros). -/
def canonicalIp (s : JStr) : Bool :=
  (splitOnDot s).all (fun p => p = natToDec (decVal p))

/-- Numeric (32-bit) value of a dotted address, big-endian over the octet
values. -/
def ipVal (s : JStr) : Nat :=
  ((splitOnDot s).map decVal).foldl (fun a o => a * 256 + o) 0

/-- The spec reading of one group of the IP regex: one to three decimal
digits whose numeric value is in [0, 255]. -/
def specOctetGroup (p : JStr) : Prop :=
  1 ≤ p.length ∧ p.length ≤ 3 ∧ (∀ c ∈ p, isDig c = true) ∧ decVal p ≤ 255

/-- The spec reading of `validateIP`: exactly four dot-separated digit
groups, each in range. -/
def specValidIP (s : JStr) : Prop :=
  ∃ g1 g2 g3 g4, s = g1 ++ '.' :: (g2 ++ '.' :: (g3 ++ '.' :: g4)) ∧
    specOctetGroup g1 ∧ specOctetGroup g2 ∧ specOctetGroup g3 ∧ specOctetGroup g4

/-- Strict whole-string integer parse, reading the spec phrase "the
remainder parses as an integer": an optional sign followed by nothing but
digits. -/
def strictInt (s : JStr) : Option Int :=
  match s with
  | '-' :: r => if !r.isEmpty && r.all isDig then some (-(decVal r : Int)) else none
  | '+' :: r => if !r.isEmpty && r.all isDig then some ((decVal r : Int)) else none
  | r => if !r.isEmpty && r.all isDig then some ((decVal r : Int)) else none

end SubnetLab


namespace SubnetLab

/-! ### Toolkit: facts about `splitOnDot` and `joinDot` -/

theorem splitOnDot_ne_nil (s : JStr) : splitOnDot s ≠ [] := by
  cases s with
  | nil => simp [splitOnDot]
  | cons c cs =>
    by_cases hc : c = '.'
    · simp [splitOnDot, hc]
    · simp only [splitOnDot, if_neg hc]
      cases h : splitOnDot cs <;> simp

theorem joinDot_cons_head (c : Char) (p : JStr) (ps : List JStr) :
    joinDot ((c :: p) :: ps) = c :: joinDot (p :: ps) := by
  cases ps <;> rfl

theorem splitOnDot_dot_cons (cs : JStr) : splitOnDot ('.' :: cs) = [] :: splitOnDot cs := by
  simp [splitOnDot]

theorem joinDot_splitOnDot (s : JStr) : joinDot (splitOnDot s) = s := by
  induction s with
  | nil => rfl
  | cons c cs ih =>
    by_cases hc : c = '.'
    · subst hc
      rw [splitOnDot_dot_cons]
      obtain ⟨p, ps, hps⟩ := List.exists_cons_of_ne_nil (splitOnDot_ne_nil cs)
      rw [hps]
      show joinDot ([] :: p :: ps) = '.' :: cs
      have : joinDot ([] :: p :: ps) = '.' :: joinDot (p :: ps) := rfl
      rw [this, ← hps, ih]
    · simp only [splitOnDot, if_neg hc]
      cases hsp : splitOnDot cs with
      | nil => exact absurd hsp (splitOnDot_ne_nil cs)
      | cons p ps => rw [joinDot_cons_head, ← hsp, ih]

theorem splitOnDot_no_dot (s : JStr) : ∀ p ∈ splitOnDot s, '.' ∉ p := by
  induction s with
  | nil =>
    intro p hp
    simp only [splitOnDot, List.mem_singleton] at hp
    simp [hp]
  | cons c cs ih =>
    intro p hp
    by_cases hc : c = '.'
    · subst hc
      rw [splitOnDot_dot_cons, List.mem_cons] at hp
      rcases hp with rfl | hp
      · simp
      · exact ih p hp
    · simp only [splitOnDot, if_neg hc] at hp
      cases hsp : splitOnDot cs with
      | nil => exact absurd hsp (splitOnDot_ne_nil cs)
      | cons q qs =>
        rw [hsp, List.mem_cons] at hp
        rcases hp with rfl | hp
        · intro hmem
          rcases List.mem_cons.mp hmem with h | h
          · exact hc h.symm
          · exact ih q (hsp ▸ List.mem_cons_self q qs) h
        · exact ih p (hsp ▸ List.mem_cons_of_mem q hp)

theorem splitOnDot_of_no_dot (p : JStr) (h : '.' ∉ p) : splitOnDot p = [p] := by
  induction p with
  | nil => rfl
  | cons c cs ih =>
    have hc : c ≠ '.' := fun hcc => h (hcc ▸ List.mem_cons_self c cs)
    have hcs : '.' ∉ cs := fun hm => h (List.mem_cons_of_mem c hm)
    simp only [splitOnDot, if_neg hc, ih hcs]

theorem splitOnDot_append_dot (p r : JStr) (h : '.' ∉ p) :
    splitOnDot (p ++ '.' :: r) = p :: splitOnDot r := by
  induction p with
  | nil => simp [splitOnDot]
  | cons c cs ih =>
    have hc : c ≠ '.' := fun hcc => h (hcc ▸ List.mem_cons_self c cs)
    have hcs : '.' ∉ cs := fun hm => h (List.mem_cons_of_mem c hm)
    simp only [List.cons_append, splitOnDot, if_neg hc, List.append_eq, ih hcs]

theorem splitOnDot_joinDot (parts : List JStr) (hne : parts ≠ [])
    (h : ∀ p ∈ parts, '.' ∉ p) : splitOnDot (joinDot parts) = parts := by
  induction parts with
  | nil => exact absurd rfl hne
  | cons p ps ih =>
    cases ps with
    | nil =>
      show splitOnDot (joinDot [p]) = [p]
      exact splitOnDot_of_no_dot p (h p (List.mem_cons_self p []))
    | cons q qs =>
      show splitOnDot (p ++ '.' :: joinDot (q :: qs)) = p :: q :: qs
      rw [splitOnDot_append_dot p _ (h p (List.mem_cons_self p _))]
      rw [ih (by simp) (fun r hr => h r (List.mem_cons_of_mem p hr))]

theorem list_len4 {α : Type} (l : List α) (h : l.length = 4) :
    ∃ a b c d, l = [a, b, c, d] := by
  rcases l with _ | ⟨a, l⟩
  · simp at h
  rcases l with _ | ⟨b, l⟩
  · simp at h
  rcases l with _ | ⟨c, l⟩
  · simp at h
  rcases l with _ | ⟨d, l⟩
  · simp at h
  rcases l with _ | ⟨e, l⟩
  · exact ⟨a, b, c, d, rfl⟩
  · simp only [List.length_cons] at h; omega

/-! ### Toolkit: character and digit facts -/

theorem char_eq_of_toNat_eq {a b : Char} (h : a.toNat = b.toNat) : a = b := by
  rw [← Char.ofNat_toNat a, ← Char.ofNat_toNat b, h]

theorem isDig_bounds {c : Char} (h : isDig c = true) :
    48 ≤ c.toNat ∧ c.toNat ≤ 57 := by
  simpa [isDig, Bool.and_eq_true, decide_eq_true_eq] using h

theorem isDig_ne_dot {c : Char} (h : isDig c = true) : c ≠ '.' := by
  intro hc; subst hc; simp [isDig] at h

theorem isDigitGroup_no_dot {p : JStr} (h : isDigitGroup p = true) : '.' ∉ p := by
  intro hm
  have := (Bool.and_eq_true_iff.mp h).2
  rw [List.all_eq_true] at this
  exact isDig_ne_dot (this '.' hm) rfl

/-! ### Toolkit: finite facts checked by evaluation -/

set_option maxRecDepth 8192

theorem decVal_natToDec : ∀ v : Nat, v < 256 → decVal (natToDec v) = v := by decide

theorem natToDec_isDigitGroup : ∀ v : Nat, v < 256 → isDigitGroup (natToDec v) = true := by
  decide

theorem natToDec_no_dot : ∀ v : Nat, v < 256 → '.' ∉ natToDec v := by decide

theorem natToDec_decVal_le : ∀ v : Nat, v < 256 → decVal (natToDec v) ≤ 255 := by decide

theorem jsParseInt2_toBin8 : ∀ v : Nat, v < 256 → jsParseInt 2 (toBin8 v) = some (v : Int) := by
  decide

theorem toBin8_length (n : Nat) : (toBin8 n).length = 8 := rfl

theorem bitChar_isBit (n i : Nat) : isBit (bitChar n i) = true := by
  unfold bitChar; split <;> rfl

theorem toBin8_isBit (n : Nat) : (toBin8 n).all isBit = true := by
  simp [toBin8, bitChar_isBit]

theorem isBit_ne_dot {c : Char} (h : isBit c = true) : c ≠ '.' := by
  rcases Bool.or_eq_true_iff.mp h with h1 | h1 <;>
    · rw [decide_eq_true_eq] at h1; subst h1; decide

theorem toBin8_no_dot (n : Nat) : '.' ∉ toBin8 n := by
  intro hm
  have := List.all_eq_true.mp (toBin8_isBit n) '.' hm
  exact isBit_ne_dot this rfl

end SubnetLab

namespace SubnetLab

/-! ### Characterizing `validateIP` -/

theorem validateIP_iff (s : JStr) :
    validateIP s = true ↔
      (splitOnDot s).length = 4 ∧
        ∀ p ∈ splitOnDot s, isDigitGroup p = true ∧ decVal p ≤ 255 := by
  unfold validateIP
  simp only [Bool.and_eq_true, List.all_eq_true, decide_eq_true_eq]
  constructor
  · rintro ⟨⟨h1, h2⟩, h3⟩
    exact ⟨h1, fun p hp => ⟨h2 p hp, h3 p hp⟩⟩
  · rintro ⟨h1, h⟩
    exact ⟨⟨h1, fun p hp => (h p hp).1⟩, fun p hp => (h p hp).2⟩

theorem specOctetGroup_iff (p : JStr) :
    specOctetGroup p ↔ isDigitGroup p = true ∧ decVal p ≤ 255 := by
  unfold specOctetGroup isDigitGroup
  simp only [Bool.and_eq_true, List.all_eq_true, decide_eq_true_eq]
  tauto

theorem joinDot_four (g1 g2 g3 g4 : JStr) :
    joinDot [g1, g2, g3, g4] = g1 ++ '.' :: (g2 ++ '.' :: (g3 ++ '.' :: g4)) := by
  simp [joinDot]

theorem splitOnDot_four (g1 g2 g3 g4 : JStr)
    (h1 : '.' ∉ g1) (h2 : '.' ∉ g2) (h3 : '.' ∉ g3) (h4 : '.' ∉ g4) :
    splitOnDot (g1 ++ '.' :: (g2 ++ '.' :: (g3 ++ '.' :: g4))) = [g1, g2, g3, g4] := by
  rw [splitOnDot_append_dot _ _ h1, splitOnDot_append_dot _ _ h2,
    splitOnDot_append_dot _ _ h3, splitOnDot_of_no_dot _ h4]

/-- C6: `validateIP(s)` returns true iff `s` consists of exactly four
dot-separated groups of 1 to 3 decimal digits, each group's numeric value
in [0, 255]; every other string returns false. -/
theorem c6_validateIP_characterization (s : JStr) :
    validateIP s = true ↔ specValidIP s := by
  rw [validateIP_iff]
  constructor
  · rintro ⟨h4, hall⟩
    obtain ⟨g1, g2, g3, g4, hsp⟩ := list_len4 _ h4
    have hmem : ∀ p ∈ [g1, g2, g3, g4], specOctetGroup p := by
      intro p hp
      exact (specOctetGroup_iff p).mpr (hall p (hsp ▸ hp))
    refine ⟨g1, g2, g3, g4, ?_, ?_, ?_, ?_, ?_⟩
    · conv_lhs => rw [← joinDot_splitOnDot s, hsp, joinDot_four]
    · exact hmem g1 (by simp)
    · exact hmem g2 (by simp)
    · exact hmem g3 (by simp)
    · exact hmem g4 (by simp)
  · rintro ⟨g1, g2, g3, g4, rfl, h1, h2, h3, h4⟩
    have nd : ∀ {g : JStr}, specOctetGroup g → '.' ∉ g := by
      intro g hg
      exact isDigitGroup_no_dot ((specOctetGroup_iff g).mp hg).1
    rw [splitOnDot_four g1 g2 g3 g4 (nd h1) (nd h2) (nd h3) (nd h4)]
    refine ⟨rfl, ?_⟩
    intro p hp
    simp only [List.mem_cons, List.not_mem_nil, or_false] at hp
    rcases hp with rfl | rfl | rfl | rfl
    · exact (specOctetGroup_iff p).mp h1
    · exact (specOctetGroup_iff p).mp h2
    · exact (specOctetGroup_iff p).mp h3
    · exact (specOctetGroup_iff p).mp h4

end SubnetLab

namespace SubnetLab

/-! ### The binary round trip -/

theorem eatGroup_append (g r : JStr) (hlen : g.length = 8) (hbit : g.all isBit = true) :
    eatGroup (g ++ r) = some (dropLeadDot r) := by
  unfold eatGroup
  rw [List.take_left' hlen, List.drop_left' hlen]
  rw [if_pos (by simp [hlen, hbit])]

theorem binShape_four (g1 g2 g3 g4 : JStr)
    (l1 : g1.length = 8) (l2 : g2.length = 8) (l3 : g3.length = 8) (l4 : g4.length = 8)
    (b1 : g1.all isBit = true) (b2 : g2.all isBit = true)
    (b3 : g3.all isBit = true) (b4 : g4.all isBit = true) :
    binShape (joinDot [g1, g2, g3, g4]) = true := by
  have e4 : eatGroup g4 = some [] := by
    have h := eatGroup_append g4 [] l4 b4
    rwa [List.append_nil] at h
  have e3 : eatGroup (g3 ++ '.' :: g4) = some g4 :=
    eatGroup_append g3 ('.' :: g4) l3 b3
  have e2 : eatGroup (g2 ++ '.' :: (g3 ++ '.' :: g4)) = some (g3 ++ '.' :: g4) :=
    eatGroup_append g2 _ l2 b2
  have e1 : eatGroup (g1 ++ '.' :: (g2 ++ '.' :: (g3 ++ '.' :: g4)))
      = some (g2 ++ '.' :: (g3 ++ '.' :: g4)) :=
    eatGroup_append g1 _ l1 b1
  rw [joinDot_four]
  simp [binShape, e1, e2, e3, e4]

theorem binGroupToDec_toBin8 (v : Nat) (hv : v < 256) :
    binGroupToDec (toBin8 v) = natToDec v := by
  unfold binGroupToDec
  rw [jsParseInt2_toBin8 v hv]
  simp

/-- C3 (counterexample): `"192.168.001.001"` is accepted by `validateIP`,
but the binary round trip returns the canonical spelling `"192.168.1.1"`,
not the original string. -/
theorem c3_roundtrip_counterexample :
    validateIP (jstr "192.168.001.001") = true ∧
      (ipToBinary (jstr "192.168.001.001")).bind binaryToIp = .ok (jstr "192.168.1.1") ∧
      jstr "192.168.1.1" ≠ jstr "192.168.001.001" := by
  refine ⟨by decide, by rfl, by decide⟩

/-- C3 (amended): for every string accepted by `validateIP` that is in
canonical dotted form (no octet has leading zeros), the binary round trip
is the identity: `binaryToIp (ipToBinary s) = ok s`. -/
theorem c3_roundtrip_canonical (s : JStr)
    (hv : validateIP s = true) (hc : canonicalIp s = true) :
    (ipToBinary s).bind binaryToIp = .ok s := by
  obtain ⟨h4, hall⟩ := (validateIP_iff s).mp hv
  obtain ⟨g1, g2, g3, g4, hsp⟩ := list_len4 _ h4
  have hmem : ∀ p ∈ [g1, g2, g3, g4], isDigitGroup p = true ∧ decVal p ≤ 255 := by
    intro p hp
    exact hall p (hsp ▸ hp)
  have hv1 : decVal g1 < 256 := by have := (hmem g1 (by simp)).2; omega
  have hv2 : decVal g2 < 256 := by have := (hmem g2 (by simp)).2; omega
  have hv3 : decVal g3 < 256 := by have := (hmem g3 (by simp)).2; omega
  have hv4 : decVal g4 < 256 := by have := (hmem g4 (by simp)).2; omega
  have hb : ipToBinary s =
      .ok (joinDot [toBin8 (decVal g1), toBin8 (decVal g2),
                    toBin8 (decVal g3), toBin8 (decVal g4)]) := by
    unfold ipToBinary
    rw [if_pos hv, hsp]
    rfl
  rw [hb]
  show binaryToIp (joinDot [toBin8 (decVal g1), toBin8 (decVal g2),
      toBin8 (decVal g3), toBin8 (decVal g4)]) = .ok s
  unfold binaryToIp
  rw [if_pos (binShape_four _ _ _ _ (toBin8_length _) (toBin8_length _)
    (toBin8_length _) (toBin8_length _)
    (toBin8_isBit _) (toBin8_isBit _) (toBin8_isBit _) (toBin8_isBit _))]
  rw [splitOnDot_joinDot _ (by simp) ?nodot]
  case nodot =>
    intro p hp
    simp only [List.mem_cons, List.not_mem_nil, or_false] at hp
    rcases hp with rfl | rfl | rfl | rfl <;> exact toBin8_no_dot _
  have hcanon : ∀ p ∈ splitOnDot s, p = natToDec (decVal p) := by
    have := hc
    unfold canonicalIp at this
    rw [List.all_eq_true] at this
    intro p hp
    exact of_decide_eq_true (this p hp)
  have hg : ∀ g ∈ [g1, g2, g3, g4], g = natToDec (decVal g) := by
    intro g hgm
    exact hcanon g (hsp ▸ hgm)
  simp only [List.map_cons, List.map_nil,
    binGroupToDec_toBin8 _ hv1, binGroupToDec_toBin8 _ hv2,
    binGroupToDec_toBin8 _ hv3, binGroupToDec_toBin8 _ hv4]
  rw [← hg g1 (by simp), ← hg g2 (by simp), ← hg g3 (by simp), ← hg g4 (by simp)]
  rw [← hsp, joinDot_splitOnDot]

/-- C3 (witness): the amended round trip at the canonical input
`"192.168.1.1"`. -/
theorem c3_roundtrip_canonical_witness :
    (ipToBinary (jstr "192.168.1.1")).bind binaryToIp = .ok (jstr "192.168.1.1") :=
  c3_roundtrip_canonical (jstr "192.168.1.1") (by decide) (by decide)

end SubnetLab

namespace SubnetLab

/-! ### C1, C2, C4: concrete boundary evaluations -/

/-- C1: the claim's own `/32` example does hold (network == broadcast ==
first == last == `192.168.1.1`, total == usable == 1), but the universal
statement fails at `ip = 255.255.255.255`: there `calculateSubnet`
increments the network address before applying the `cidr >= 31` override
and aborts with the address-space overflow. -/
theorem c1_cidr31_boundary_bug :
    calculateSubnet (jstr "192.168.1.1") (jstr "255.255.255.255")
      = .ok { networkAddress := jstr "192.168.1.1"
              broadcastAddress := jstr "192.168.1.1"
              firstHost := jstr "192.168.1.1"
              lastHost := jstr "192.168.1.1"
              totalHosts := 1
              usableHosts := 1
              subnetMask := jstr "255.255.255.255"
              wildcardMask := jstr "0.0.0.0"
              binaryIP := jstr "11000000.10101000.00000001.00000001"
              binaryMask := jstr "11111111.11111111.11111111.11111111" } ∧
      calculateSubnet (jstr "255.255.255.255") (jstr "255.255.255.255")
        = .error .AddressSpaceExhausted := by
  exact ⟨by decide, by decide⟩

/-- C2: a valid address paired with a valid CIDR on which `calculateSubnet`
fails, and with kind `AddressSpaceExhausted` — outside the claimed
`InvalidAddress | InvalidMask | InvalidCidr` failure set. -/
theorem c2_error_kind_bug :
    validateIP (jstr "0.0.0.0") = true ∧
      validateSubnetMask (jstr "/32") = true ∧
      calculateSubnet (jstr "0.0.0.0") (jstr "/32") = .error .AddressSpaceExhausted := by
  exact ⟨by decide, by decide, by decide⟩

/-- C4: the shape regex `^([01]{8}\.?){4}$` makes every separating dot
optional, so `binaryToIp` accepts a 32-digit dotless string (returning a
single number, not a dotted address) and a string with a trailing dot
(returning a `NaN` octet) instead of failing with `InvalidFormat`. -/
theorem c4_binaryToIp_shape_bug :
    binaryToIp (jstr "11111111111111111111111111111111") = .ok (jstr "4294967295") ∧
      binaryToIp (jstr "11111111.11111111.11111111.11111111.")
        = .ok (jstr "255.255.255.255.NaN") := by
  exact ⟨by decide, by decide⟩

end SubnetLab

namespace SubnetLab

/-! ### C5: mask validity -/

theorem onesThenZeros_iff (l : JStr) :
    onesThenZeros l = true ↔ ∃ a b, l = List.replicate a '1' ++ List.replicate b '0' := by
  constructor
  · induction l with
    | nil => exact fun _ => ⟨0, 0, rfl⟩
    | cons c cs ih =>
      intro h
      by_cases hc : c = '1'
      · subst hc
        have h' : onesThenZeros cs = true := by
          unfold onesThenZeros at h
          rwa [List.dropWhile_cons_of_pos (by simp)] at h
        obtain ⟨a, b, hab⟩ := ih h'
        exact ⟨a + 1, b, by rw [List.replicate_succ, List.cons_append, hab]⟩
      · have h' : (c :: cs).all (fun x => x = '0') = true := by
          unfold onesThenZeros at h
          rwa [List.dropWhile_cons_of_neg (by simp [hc])] at h
        rw [List.all_eq_true] at h'
        refine ⟨0, (c :: cs).length, ?_⟩
        rw [List.replicate_zero, List.nil_append]
        exact List.eq_replicate_iff.mpr ⟨rfl, fun x hx => of_decide_eq_true (h' x hx)⟩
  · rintro ⟨a, b, rfl⟩
    induction a with
    | zero =>
      rw [List.replicate_zero, List.nil_append]
      cases b with
      | zero => rfl
      | succ b' =>
        unfold onesThenZeros
        rw [List.replicate_succ, List.dropWhile_cons_of_neg (by decide)]
        rw [List.all_eq_true]
        intro x hx
        have hx0 : x = '0' := by
          rcases List.mem_cons.mp hx with rfl | hm
          · rfl
          · exact List.eq_of_mem_replicate hm
        simp [hx0]
    | succ a' ih =>
      unfold onesThenZeros at ih ⊢
      rw [List.replicate_succ, List.cons_append, List.dropWhile_cons_of_pos (by decide)]
      exact ih

theorem ipBits_parts (m g1 g2 g3 g4 : JStr) (hsp : splitOnDot m = [g1, g2, g3, g4]) :
    ipBits m = toBin8 (decVal g1) ++
      (toBin8 (decVal g2) ++ (toBin8 (decVal g3) ++ toBin8 (decVal g4))) := by
  simp [ipBits, hsp]

theorem ipBits_length (m : JStr) (h : validateIP m = true) : (ipBits m).length = 32 := by
  obtain ⟨h4, _⟩ := (validateIP_iff m).mp h
  obtain ⟨g1, g2, g3, g4, hsp⟩ := list_len4 _ h4
  rw [ipBits_parts m g1 g2 g3 g4 hsp]
  simp [List.length_append, toBin8_length]

theorem validateIP_slash (rest : JStr) : validateIP ('/' :: rest) = false := by
  cases hv : validateIP ('/' :: rest)
  · rfl
  · exfalso
    obtain ⟨_, hall⟩ := (validateIP_iff _).mp hv
    obtain ⟨p, ps, hps⟩ := List.exists_cons_of_ne_nil (splitOnDot_ne_nil rest)
    have hsp : splitOnDot ('/' :: rest) = ('/' :: p) :: ps := by
      simp only [splitOnDot]
      rw [if_neg (by decide), hps]
    have hgrp := (hall ('/' :: p) (by rw [hsp]; exact List.mem_cons_self _ _)).1
    have hdig := (Bool.and_eq_true_iff.mp hgrp).2
    rw [List.all_eq_true] at hdig
    have := hdig '/' (List.mem_cons_self _ _)
    simp [isDig] at this

theorem validateSubnetMask_slash (rest : JStr) :
    validateSubnetMask ('/' :: rest) =
      (match jsParseInt 10 rest with
       | none => false
       | some c => decide (0 ≤ c) && decide (c ≤ 32)) := rfl

theorem validateSubnetMask_not_slash (c : Char) (rest : JStr) (hc : c ≠ '/') :
    validateSubnetMask (c :: rest) =
      (if validateIP (c :: rest) then
        (ipBits (c :: rest)).all isBit && onesThenZeros (ipBits (c :: rest)) &&
          decide ((ipBits (c :: rest)).length = 32)
       else false) := by
  unfold validateSubnetMask
  split
  · next heq => injection heq with h1 _; exact absurd h1 hc
  · rfl

/-- C5 (counterexample): the code accepts `"/24x"` (its `parseInt` stops at
the first non-digit), but `"24x"` does not parse as an integer in [0,32],
and `"/24x"` is not an IP-shaped contiguous mask either — so the claimed
iff fails. -/
theorem c5_mask_counterexample :
    validateSubnetMask (jstr "/24x") = true ∧
      ¬((∃ n, strictInt (jstr "24x") = some n ∧ 0 ≤ n ∧ n ≤ 32) ∨
        (validateIP (jstr "/24x") = true ∧
          ∃ L < 33, ipBits (jstr "/24x")
            = List.replicate L '1' ++ List.replicate (32 - L) '0')) := by
  refine ⟨by decide, ?_⟩
  rintro (⟨n, hn, _, _⟩ | ⟨hv, _⟩)
  · rw [show strictInt (jstr "24x") = none from by decide] at hn
    cases hn
  · exact absurd hv (by decide)

/-- C5 (amended): `validateSubnetMask(s)` is true iff either `s` starts
with `/` and `parseInt` applied to the remainder (prefix parse: optional
sign, longest digit run) yields an integer in [0,32], or `s` is a valid
IP-shaped string whose 32-bit expansion is a run of 1-bits followed only
by 0-bits.  In particular `255.255.254.0` is valid and `255.255.255.1` is
not. -/
theorem c5_mask_validation_amended (m : JStr) :
    validateSubnetMask m = true ↔
      ((∃ r n, m = '/' :: r ∧ jsParseInt 10 r = some n ∧ 0 ≤ n ∧ n ≤ 32) ∨
       (validateIP m = true ∧
         ∃ L < 33, ipBits m = List.replicate L '1' ++ List.replicate (32 - L) '0')) := by
  cases m with
  | nil =>
    constructor
    · intro h; exact absurd h (by decide)
    · rintro (⟨r, n, h, _⟩ | ⟨hv, _⟩)
      · cases h
      · exact absurd hv (by decide)
  | cons c rest =>
    by_cases hc : c = '/'
    · subst hc
      rw [validateSubnetMask_slash]
      cases hp : jsParseInt 10 rest with
      | none =>
        constructor
        · intro h; cases h
        · rintro (⟨r, n, he, hpn, _, _⟩ | ⟨hv, _⟩)
          · injection he with h1 h2
            rw [h2] at hp
            rw [hp] at hpn
            cases hpn
          · rw [validateIP_slash rest] at hv
            cases hv
      | some k =>
        constructor
        · intro h
          have hk := Bool.and_eq_true_iff.mp h
          exact Or.inl ⟨rest, k, rfl, hp,
            of_decide_eq_true hk.1, of_decide_eq_true hk.2⟩
        · rintro (⟨r, n, he, hpn, h0, h32⟩ | ⟨hv, _⟩)
          · injection he with h1 h2
            rw [h2] at hp
            rw [hp] at hpn
            injection hpn with hkn
            subst hkn
            simp [h0, h32]
          · rw [validateIP_slash rest] at hv
            cases hv
    · rw [validateSubnetMask_not_slash c rest hc]
      by_cases hv : validateIP (c :: rest) = true
      · rw [if_pos hv]
        constructor
        · intro h
          have h1 := Bool.and_eq_true_iff.mp h
          have h2 := Bool.and_eq_true_iff.mp h1.1
          obtain ⟨a, b, hab⟩ := (onesThenZeros_iff _).mp h2.2
          have hlen : (ipBits (c :: rest)).length = 32 := of_decide_eq_true h1.2
          have hablen : a + b = 32 := by
            have hl := congrArg List.length hab
            rw [hlen, List.length_append, List.length_replicate,
              List.length_replicate] at hl
            omega
          refine Or.inr ⟨hv, a, by omega, ?_⟩
          rw [hab]
          have : b = 32 - a := by omega
          rw [this]
        · rintro (⟨r, n, he, _⟩ | ⟨_, L, hL, hbits⟩)
          · injection he with h1 _
            exact absurd h1 hc
          · rw [hbits]
            refine Bool.and_eq_true_iff.mpr ⟨Bool.and_eq_true_iff.mpr ⟨?_, ?_⟩, ?_⟩
            · rw [List.all_eq_true]
              intro x hx
              rcases List.mem_append.mp hx with hm | hm
              · rw [List.eq_of_mem_replicate hm]; rfl
              · rw [List.eq_of_mem_replicate hm]; rfl
            · exact (onesThenZeros_iff _).mpr ⟨L, 32 - L, rfl⟩
            · apply decide_eq_true
              rw [List.length_append, List.length_replicate, List.length_replicate]
              omega
      · rw [if_neg hv]
        constructor
        · intro h; cases h
        · rintro (⟨r, n, he, _⟩ | ⟨hv', _⟩)
          · injection he with h1 _
            exact absurd h1 hc
          · exact absurd hv' hv

end SubnetLab

namespace SubnetLab

/-! ### C7: CIDR / mask round trip -/

theorem cidrToMask_validIP : ∀ k : Nat, k < 33 →
    (cidrToMask (some (k : Int))).map validateIP = .ok true := by decide

theorem cidrToMask_bits : ∀ k : Nat, k < 33 →
    (cidrToMask (some (k : Int))).map ipBits
      = .ok (List.replicate k '1' ++ List.replicate (32 - k) '0') := by decide

theorem cidrToMask_maskToCidr : ∀ k : Nat, k < 33 →
    (cidrToMask (some (k : Int))).bind maskToCidr = .ok k := by decide

/-- C7: for every integer n in [0,32], `cidrToMask n` returns the
dotted-decimal mask whose first n bits are set (a string `validateIP`
accepts whose 32 bits are n ones then zeros) and `maskToCidr` maps it back
to n; for every n outside [0,32], and for the non-numeric input `NaN`,
`cidrToMask` fails with `OutOfRange`. -/
theorem c7_cidr_mask_roundtrip (n : Int) :
    (0 ≤ n → n ≤ 32 →
      ∃ m, cidrToMask (some n) = .ok m ∧ validateIP m = true ∧
        ipBits m = List.replicate n.toNat '1' ++ List.replicate (32 - n.toNat) '0' ∧
        maskToCidr m = .ok n.toNat) ∧
    ((n < 0 ∨ 32 < n) → cidrToMask (some n) = .error .OutOfRange) ∧
    cidrToMask none = .error .OutOfRange := by
  refine ⟨?_, ?_, rfl⟩
  · intro h0 h32
    have hk : ((n.toNat : Nat) : Int) = n := Int.toNat_of_nonneg h0
    have hklt : n.toNat < 33 := by omega
    have e1 := cidrToMask_validIP n.toNat hklt
    have e2 := cidrToMask_bits n.toNat hklt
    have e3 := cidrToMask_maskToCidr n.toNat hklt
    rw [hk] at e1 e2 e3
    cases hcm : cidrToMask (some n) with
    | error e => rw [hcm] at e1; cases e1
    | ok m =>
      rw [hcm] at e1 e2 e3
      refine ⟨m, rfl, ?_, ?_, ?_⟩
      · simpa [Except.map] using e1
      · simpa [Except.map] using e2
      · simpa [Except.bind] using e3
  · intro h
    show (if n < 0 ∨ 32 < n then Except.error Err.OutOfRange
      else Except.ok (joinDot (List.map natToDec (maskOctets n)))) = .error .OutOfRange
    rw [if_pos h]

/-- C7 (witness): the round trip at n = 24. -/
theorem c7_cidr_mask_roundtrip_witness :
    ∃ m, cidrToMask (some 24) = .ok m ∧ validateIP m = true ∧
      ipBits m = List.replicate (Int.toNat 24) '1'
        ++ List.replicate (32 - Int.toNat 24) '0' ∧
      maskToCidr m = .ok (Int.toNat 24) :=
  (c7_cidr_mask_roundtrip 24).1 (by decide) (by decide)

end SubnetLab

namespace SubnetLab

/-! ### Parsing digit groups; canonical renderings -/

theorem isDig_not_space {c : Char} (h : isDig c = true) : isJsSpace c = false := by
  have hb := isDig_bounds h
  cases hs : isJsSpace c
  · rfl
  · exfalso
    unfold isJsSpace at hs
    simp only [Bool.or_eq_true_iff, decide_eq_true_eq] at hs
    rcases hs with ((((hc | hc) | hc) | hc) | hc) | hc <;>
      (subst hc; exact absurd hb.1 (by decide))

theorem takeWhile_all {α : Type} (p : α → Bool) :
    ∀ l : List α, l.all p = true → l.takeWhile p = l := by
  intro l
  induction l with
  | nil => intro _; rfl
  | cons a l ih =>
    intro h
    rw [List.all_cons, Bool.and_eq_true_iff] at h
    rw [List.takeWhile_cons_of_pos h.1, ih h.2]

theorem jsParseInt10_digits (p : JStr) (hne : p ≠ []) (hdig : p.all isDig = true) :
    jsParseInt 10 p = some ((decVal p : Nat) : Int) := by
  cases p with
  | nil => exact absurd rfl hne
  | cons c cs =>
    have hall := List.all_eq_true.mp hdig
    have hc : isDig c = true := hall c (List.mem_cons_self _ _)
    unfold jsParseInt
    rw [List.dropWhile_cons_of_neg (by simp [isDig_not_space hc])]
    split
    · next r heq =>
      injection heq with h1 _
      rw [h1] at hc
      exact absurd hc (by decide)
    · next r heq =>
      injection heq with h1 _
      rw [h1] at hc
      exact absurd hc (by decide)
    · unfold parseDigits
      rw [takeWhile_all _ _ ?alldig]
      case alldig =>
        rw [List.all_eq_true]
        intro x hx
        have hbx := isDig_bounds (hall x hx)
        unfold radixDigit
        rw [hall x hx, Bool.true_and]
        apply decide_eq_true
        unfold digitVal
        omega
      rw [if_neg (by simp)]
      rfl

theorem toNum_digitGroup (p : JStr) (h : isDigitGroup p = true) : toNum p = decVal p := by
  have hlen := (Bool.and_eq_true_iff.mp (Bool.and_eq_true_iff.mp h).1).1
  have hdig := (Bool.and_eq_true_iff.mp h).2
  have hne : p ≠ [] := by
    have := of_decide_eq_true hlen
    cases p
    · simp at this
    · simp
  unfold toNum
  rw [if_pos (Bool.and_eq_true_iff.mpr ⟨by simp [hne], hdig⟩)]

theorem isDigitGroup_ne_nil (p : JStr) (h : isDigitGroup p = true) : p ≠ [] := by
  have hlen := of_decide_eq_true (Bool.and_eq_true_iff.mp (Bool.and_eq_true_iff.mp h).1).1
  cases p
  · simp at hlen
  · simp

theorem getD_bound (l : List Nat) (hb : ∀ v ∈ l, v ≤ 255) (i : Nat) : l.getD i 0 ≤ 255 := by
  rw [List.getD_eq_getElem?_getD]
  cases hg : l[i]? with
  | none => simp
  | some v =>
    simp only [Option.getD_some]
    exact hb v (List.getElem?_mem hg)

theorem canonical_join (vals : List Nat) (hne : vals ≠ []) (hb : ∀ v ∈ vals, v < 256) :
    canonicalIp (joinDot (vals.map natToDec)) = true := by
  unfold canonicalIp
  rw [splitOnDot_joinDot _ (by simpa using hne) ?nodot]
  case nodot =>
    intro p hp
    rw [List.mem_map] at hp
    obtain ⟨v, hv, rfl⟩ := hp
    exact natToDec_no_dot v (hb v hv)
  rw [List.all_eq_true]
  intro p hp
  rw [List.mem_map] at hp
  obtain ⟨v, hv, rfl⟩ := hp
  apply decide_eq_true
  rw [decVal_natToDec v (hb v hv)]

theorem canonical_join_fn (n : Nat) (f : Nat → Nat) (hn : n ≠ 0) (hb : ∀ i, f i < 256) :
    canonicalIp (joinDot ((List.range n).map (fun i => natToDec (f i)))) = true := by
  have hmm : (List.range n).map (fun i => natToDec (f i))
      = ((List.range n).map f).map natToDec := by
    rw [List.map_map]
    rfl
  rw [hmm]
  apply canonical_join
  · simp [hn]
  · intro v hv
    rw [List.mem_map] at hv
    obtain ⟨i, _, rfl⟩ := hv
    exact hb i

theorem validIP_toNum_bound (s : JStr) (h : validateIP s = true) :
    ∀ v ∈ (splitOnDot s).map toNum, v ≤ 255 := by
  obtain ⟨_, hall⟩ := (validateIP_iff s).mp h
  intro v hv
  rw [List.mem_map] at hv
  obtain ⟨p, hp, rfl⟩ := hv
  rw [toNum_digitGroup p (hall p hp).1]
  exact (hall p hp).2

theorem validIP_parts_length (s : JStr) (h : validateIP s = true) :
    (splitOnDot s).length = 4 := ((validateIP_iff s).mp h).1

end SubnetLab

namespace SubnetLab

/-! ### Canonicality of each address-producing operation -/

theorem bitwiseAnd_canonical (x y : JStr)
    (hx : validateIP x = true) (hy : validateIP y = true) :
    canonicalIp (bitwiseAnd x y) = true := by
  unfold bitwiseAnd
  apply canonical_join_fn
  · rw [List.length_map, validIP_parts_length x hx]
    decide
  · intro i
    have hb : ((splitOnDot y).map toNum).getD i 0 ≤ 255 :=
      getD_bound _ (validIP_toNum_bound y hy) i
    have h2 : ((splitOnDot y).map toNum).getD i 0 < 256 := by omega
    exact (Nat.and_lt_two_pow _ (show _ < 2 ^ 8 from h2) : _ < 2 ^ 8)

theorem bitwiseOr_ok_parts (x y z : JStr) (h : bitwiseOr x y = .ok z) :
    validateIP x = true ∧ validateIP y = true ∧
      z = joinDot ((List.range ((splitOnDot x).map toNum).length).map
        (fun i => natToDec (((splitOnDot x).map toNum).getD i 0 |||
                            ((splitOnDot y).map toNum).getD i 0))) := by
  unfold bitwiseOr at h
  split at h
  · next hv =>
    rw [Bool.and_eq_true_iff] at hv
    injection h with h'
    exact ⟨hv.1, hv.2, h'.symm⟩
  · exact Except.noConfusion h

theorem bitwiseOr_ok_canonical (x y z : JStr) (h : bitwiseOr x y = .ok z) :
    canonicalIp z = true := by
  obtain ⟨hx, hy, rfl⟩ := bitwiseOr_ok_parts x y z h
  apply canonical_join_fn
  · rw [List.length_map, validIP_parts_length x hx]
    decide
  · intro i
    have hbx : ((splitOnDot x).map toNum).getD i 0 ≤ 255 :=
      getD_bound _ (validIP_toNum_bound x hx) i
    have hby : ((splitOnDot y).map toNum).getD i 0 ≤ 255 :=
      getD_bound _ (validIP_toNum_bound y hy) i
    have h2x : ((splitOnDot x).map toNum).getD i 0 < 256 := by omega
    have h2y : ((splitOnDot y).map toNum).getD i 0 < 256 := by omega
    exact (Nat.or_lt_two_pow (show _ < 2 ^ 8 from h2x) (show _ < 2 ^ 8 from h2y) : _ < 2 ^ 8)

theorem wildcardOctet_digitGroup (p : JStr) (hg : isDigitGroup p = true) :
    wildcardOctet p = natToDec ((255 : Int) - (decVal p : Int)).toNat := by
  unfold wildcardOctet
  rw [jsParseInt10_digits p (isDigitGroup_ne_nil p hg)
    (Bool.and_eq_true_iff.mp hg).2]

theorem getWildcardMask_ok_parts (m w : JStr) (h : getWildcardMask m = .ok w) :
    validateSubnetMask m = true ∧ w = joinDot ((splitOnDot m).map wildcardOctet) := by
  unfold getWildcardMask at h
  split at h
  · next hv =>
    injection h with h'
    exact ⟨hv, h'.symm⟩
  · exact Except.noConfusion h

theorem getWildcardMask_ok_canonical (m w : JStr)
    (hm : validateIP m = true) (h : getWildcardMask m = .ok w) :
    canonicalIp w = true := by
  obtain ⟨_, rfl⟩ := getWildcardMask_ok_parts m w h
  obtain ⟨_, hall⟩ := (validateIP_iff m).mp hm
  have hmap : (splitOnDot m).map wildcardOctet
      = ((splitOnDot m).map (fun p => ((255 : Int) - (decVal p : Int)).toNat)).map natToDec := by
    rw [List.map_map]
    apply List.map_congr_left
    intro p hp
    exact wildcardOctet_digitGroup p (hall p hp).1
  rw [hmap]
  apply canonical_join
  · have := splitOnDot_ne_nil m
    simpa using this
  · intro v hv
    rw [List.mem_map] at hv
    obtain ⟨p, hp, rfl⟩ := hv
    have := (hall p hp).2
    omega

theorem incCarry_bound (l : List Nat) : ∀ l', incCarry l = some l' →
    (∀ v ∈ l, v ≤ 255) → ∀ v ∈ l', v ≤ 255 := by
  induction l with
  | nil => intro l' h; cases h
  | cons o rest ih =>
    intro l' h hb
    unfold incCarry at h
    by_cases ho : o < 255
    · rw [if_pos ho] at h
      injection h with h'
      subst h'
      intro v hv
      rcases List.mem_cons.mp hv with rfl | hm
      · omega
      · exact hb v (List.mem_cons_of_mem _ hm)
    · rw [if_neg ho] at h
      cases hr : incCarry rest with
      | none => rw [hr] at h; cases h
      | some l'' =>
        rw [hr] at h
        injection h with h'
        subst h'
        intro v hv
        rcases List.mem_cons.mp hv with rfl | hm
        · omega
        · exact ih l'' hr (fun u hu => hb u (List.mem_cons_of_mem _ hu)) v hm

theorem incCarry_ne_nil (l l' : List Nat) (h : incCarry l = some l') : l' ≠ [] := by
  cases l with
  | nil => cases h
  | cons o rest =>
    unfold incCarry at h
    by_cases ho : o < 255
    · rw [if_pos ho] at h
      injection h with h'
      subst h'
      simp
    · rw [if_neg ho] at h
      cases hr : incCarry rest with
      | none => rw [hr] at h; cases h
      | some l'' =>
        rw [hr] at h
        injection h with h'
        subst h'
        simp

theorem decBorrow_bound (l : List Nat) (hb : ∀ v ∈ l, v ≤ 255) :
    ∀ v ∈ decBorrow l, v ≤ 255 := by
  induction l with
  | nil => intro v hv; cases hv
  | cons o rest ih =>
    unfold decBorrow
    by_cases ho : 0 < o
    · rw [if_pos ho]
      intro v hv
      rcases List.mem_cons.mp hv with rfl | hm
      · have := hb o (List.mem_cons_self _ _)
        omega
      · exact hb v (List.mem_cons_of_mem _ hm)
    · rw [if_neg ho]
      intro v hv
      rcases List.mem_cons.mp hv with rfl | hm
      · omega
      · exact ih (fun u hu => hb u (List.mem_cons_of_mem _ hu)) v hm

theorem decBorrow_ne_nil (l : List Nat) (h : l ≠ []) : decBorrow l ≠ [] := by
  cases l with
  | nil => exact absurd rfl h
  | cons o rest =>
    unfold decBorrow
    by_cases ho : 0 < o
    · rw [if_pos ho]; simp
    · rw [if_neg ho]; simp

theorem incrementIp_ok_parts (x y : JStr) (h : incrementIp x = .ok y) :
    validateIP x = true ∧
      ∃ l, incCarry (((splitOnDot x).map decVal).reverse) = some l ∧
        y = joinDot (l.reverse.map natToDec) := by
  simp only [incrementIp] at h
  split at h
  · next hv =>
    cases hic : incCarry (((splitOnDot x).map decVal).reverse) with
    | none => rw [hic] at h; cases h
    | some l =>
      rw [hic] at h
      injection h with h'
      exact ⟨hv, l, rfl, h'.symm⟩
  · exact Except.noConfusion h

theorem incrementIp_ok_canonical (x y : JStr) (h : incrementIp x = .ok y) :
    canonicalIp y = true := by
  obtain ⟨hv, l, hic, rfl⟩ := incrementIp_ok_parts x y h
  apply canonical_join
  · simpa using incCarry_ne_nil _ l hic
  · intro v hv'
    rw [List.mem_reverse] at hv'
    have hb : ∀ u ∈ ((splitOnDot x).map decVal).reverse, u ≤ 255 := by
      intro u hu
      rw [List.mem_reverse, List.mem_map] at hu
      obtain ⟨p, hp, rfl⟩ := hu
      exact (((validateIP_iff x).mp hv).2 p hp).2
    have := incCarry_bound _ l hic hb v hv'
    omega

theorem decrementIp_ok_parts (x y : JStr) (h : decrementIp x = .ok y) :
    validateIP x = true ∧
      ((splitOnDot x).map decVal).all (· = 0) = false ∧
      y = joinDot ((decBorrow (((splitOnDot x).map decVal).reverse)).reverse.map natToDec) := by
  simp only [decrementIp] at h
  split at h
  · next hv =>
    split at h
    · exact Except.noConfusion h
    · next hz =>
      injection h with h'
      exact ⟨hv, by simpa using hz, h'.symm⟩
  · exact Except.noConfusion h

theorem decrementIp_ok_canonical (x y : JStr) (h : decrementIp x = .ok y) :
    canonicalIp y = true := by
  obtain ⟨hv, _, rfl⟩ := decrementIp_ok_parts x y h
  apply canonical_join
  · have h1 : ((splitOnDot x).map decVal).reverse ≠ [] := by
      simpa using splitOnDot_ne_nil x
    simpa using decBorrow_ne_nil _ h1
  · intro v hv'
    rw [List.mem_reverse] at hv'
    have hb : ∀ u ∈ ((splitOnDot x).map decVal).reverse, u ≤ 255 := by
      intro u hu
      rw [List.mem_reverse, List.mem_map] at hu
      obtain ⟨p, hp, rfl⟩ := hu
      exact (((validateIP_iff x).mp hv).2 p hp).2
    have := decBorrow_bound _ hb v hv'
    omega

end SubnetLab

namespace SubnetLab

/-! ### Inverting a successful `calculateSubnet` -/

theorem convertMask_ok_validIP (ms mask : JStr) (hcm : convertMask ms = .ok mask)
    (hvm : validateSubnetMask mask = true) : validateIP mask = true := by
  unfold convertMask at hcm
  split at hcm
  · next rest =>
    split at hcm
    · exact Except.noConfusion hcm
    · next cidr hp =>
      split at hcm
      · exact Except.noConfusion hcm
      · next hrange =>
        have h0 : 0 ≤ cidr := by omega
        have hcm2 : cidrToMask (some cidr) = .ok mask := hcm
        have hc2 : cidrToMask (some cidr)
            = .ok (joinDot (List.map natToDec (maskOctets cidr))) := by
          show (if cidr < 0 ∨ 32 < cidr then Except.error Err.OutOfRange
            else Except.ok (joinDot (List.map natToDec (maskOctets cidr))))
            = Except.ok (joinDot (List.map natToDec (maskOctets cidr)))
          rw [if_neg hrange]
        rw [hc2] at hcm2
        injection hcm2 with hm'
        have e1 := cidrToMask_validIP cidr.toNat (by omega)
        rw [Int.toNat_of_nonneg h0, hc2] at e1
        simp only [Except.map] at e1
        injection e1 with e1'
        rw [hm'] at e1'
        exact e1'
  · next hne =>
    injection hcm with h'
    subst h'
    cases ms with
    | nil => exact absurd hvm (by decide)
    | cons c rest =>
      have hc : c ≠ '/' := by
        intro hcc
        exact hne rest (by rw [hcc])
      rw [validateSubnetMask_not_slash c rest hc] at hvm
      by_cases hv : validateIP (c :: rest) = true
      · exact hv
      · rw [if_neg hv] at hvm
        cases hvm

theorem calculateSubnet_ok_parts (ip ms : JStr) (r : SubnetInfo)
    (h : calculateSubnet ip ms = .ok r) :
    validateIP ip = true ∧
    ∃ mask cidr wildcard broadcast first0 last0 binIP binMask,
      convertMask ms = .ok mask ∧
      validateSubnetMask mask = true ∧
      ipToBinary ip = .ok binIP ∧
      ipToBinary mask = .ok binMask ∧
      getWildcardMask mask = .ok wildcard ∧
      bitwiseOr (bitwiseAnd ip mask) wildcard = .ok broadcast ∧
      incrementIp (bitwiseAnd ip mask) = .ok first0 ∧
      decrementIp broadcast = .ok last0 ∧
      maskToCidr mask = .ok cidr ∧
      r = { networkAddress := bitwiseAnd ip mask
            broadcastAddress := broadcast
            firstHost := if 31 ≤ cidr then bitwiseAnd ip mask else first0
            lastHost := if 31 ≤ cidr then broadcast else last0
            totalHosts := 2 ^ (32 - cidr)
            usableHosts := if 31 ≤ cidr then 2 ^ (32 - cidr) else 2 ^ (32 - cidr) - 2
            subnetMask := mask
            wildcardMask := wildcard
            binaryIP := binIP
            binaryMask := binMask } := by
  simp only [calculateSubnet] at h
  split at h
  · exact Except.noConfusion h
  · next hvip =>
    have hip : validateIP ip = true := by simpa using hvip
    refine ⟨hip, ?_⟩
    split at h
    · exact Except.noConfusion h
    · next mask hmask =>
      split at h
      · exact Except.noConfusion h
      · next w0 hw0 =>
        split at h
        · exact Except.noConfusion h
        · next b0 hb0 =>
          split at h
          · exact Except.noConfusion h
          · next hvsm =>
            have hvm : validateSubnetMask mask = true := by simpa using hvsm
            split at h
            · exact Except.noConfusion h
            · next binIP hbip =>
              split at h
              · exact Except.noConfusion h
              · next binMask hbm =>
                split at h
                · exact Except.noConfusion h
                · next wildcard hw =>
                  injection hw with hww
                  subst hww
                  split at h
                  · exact Except.noConfusion h
                  · next broadcast hor =>
                    split at h
                    · exact Except.noConfusion h
                    · next first0 hinc =>
                      split at h
                      · exact Except.noConfusion h
                      · next last0 hdec =>
                        split at h
                        · exact Except.noConfusion h
                        · next cidr hmc =>
                          injection h with h'
                          exact ⟨mask, cidr, w0, broadcast, first0, last0,
                            binIP, binMask, hmask, hvm, hbip, hbm, hw0, hor, hinc,
                            hdec, hmc, h'.symm⟩

/-- C9: every successful `calculateSubnet` result satisfies
`totalHosts = 2^(32 - cidr)`, and `usableHosts` is `totalHosts` when
`cidr >= 31` and `2^(32 - cidr) - 2` when `cidr <= 30` (`cidr` being the
prefix length of the result's mask). -/
theorem c9_host_counts (ip ms : JStr) (r : SubnetInfo) (c : Nat)
    (h : calculateSubnet ip ms = .ok r) (hc : maskToCidr r.subnetMask = .ok c) :
    r.totalHosts = 2 ^ (32 - c) ∧
      r.usableHosts = if 31 ≤ c then r.totalHosts else 2 ^ (32 - c) - 2 := by
  obtain ⟨hip, mask, cidr, wildcard, broadcast, f0, l0, bi, bm,
    hmask, hvm, hbip, hbm, hw, hor, hinc, hdec, hmc, hr⟩ :=
    calculateSubnet_ok_parts ip ms r h
  subst hr
  have hc' : maskToCidr mask = .ok c := hc
  rw [hmc] at hc'
  injection hc' with hcc
  subst hcc
  exact ⟨rfl, rfl⟩

/-- C9 (witness): the host counts at `("192.168.1.1", "/24")`. -/
theorem c9_host_counts_witness :
    ∃ r c, calculateSubnet (jstr "192.168.1.1") (jstr "/24") = .ok r ∧
      maskToCidr r.subnetMask = .ok c ∧ r.totalHosts = 2 ^ (32 - c) ∧
      r.usableHosts = if 31 ≤ c then r.totalHosts else 2 ^ (32 - c) - 2 := by
  refine ⟨{ networkAddress := jstr "192.168.1.0"
            broadcastAddress := jstr "192.168.1.255"
            firstHost := jstr "192.168.1.1"
            lastHost := jstr "192.168.1.254"
            totalHosts := 256
            usableHosts := 254
            subnetMask := jstr "255.255.255.0"
            wildcardMask := jstr "0.0.0.255"
            binaryIP := jstr "11000000.10101000.00000001.00000001"
            binaryMask := jstr "11111111.11111111.11111111.00000000" },
    24, by decide, by decide, ?_⟩
  exact c9_host_counts (jstr "192.168.1.1") (jstr "/24") _ 24 (by decide) (by decide)

/-- C10: `validateIP` accepts leading-zero octets (`"192.168.001.001"`),
`ipToBinary` sends such a string and its canonical form to the same binary
string, and every derived address field of a successful `calculateSubnet`
(network, broadcast, first host, last host, wildcard) comes back in
canonical dotted form without leading zeros. -/
theorem c10_canonical_outputs :
    validateIP (jstr "192.168.001.001") = true ∧
      ipToBinary (jstr "192.168.001.001") = ipToBinary (jstr "192.168.1.1") ∧
      ∀ ip ms r, calculateSubnet ip ms = .ok r →
        canonicalIp r.networkAddress = true ∧
        canonicalIp r.broadcastAddress = true ∧
        canonicalIp r.firstHost = true ∧
        canonicalIp r.lastHost = true ∧
        canonicalIp r.wildcardMask = true := by
  refine ⟨by decide, by decide, ?_⟩
  intro ip ms r h
  obtain ⟨hip, mask, cidr, wildcard, broadcast, f0, l0, bi, bm,
    hmask, hvm, hbip, hbm, hw, hor, hinc, hdec, hmc, hr⟩ :=
    calculateSubnet_ok_parts ip ms r h
  have hvmask : validateIP mask = true := convertMask_ok_validIP ms mask hmask hvm
  have hnet : canonicalIp (bitwiseAnd ip mask) = true :=
    bitwiseAnd_canonical ip mask hip hvmask
  have hbr : canonicalIp broadcast = true := bitwiseOr_ok_canonical _ _ _ hor
  have hf0 : canonicalIp f0 = true := incrementIp_ok_canonical _ _ hinc
  have hl0 : canonicalIp l0 = true := decrementIp_ok_canonical _ _ hdec
  have hwc : canonicalIp wildcard = true := getWildcardMask_ok_canonical mask wildcard hvmask hw
  subst hr
  refine ⟨hnet, hbr, ?_, ?_, hwc⟩
  · show canonicalIp (if 31 ≤ cidr then bitwiseAnd ip mask else f0) = true
    split
    · exact hnet
    · exact hf0
  · show canonicalIp (if 31 ≤ cidr then broadcast else l0) = true
    split
    · exact hbr
    · exact hl0

/-- C10 (witness): the canonical output fields at
`("192.168.001.001", "/24")`. -/
theorem c10_canonical_outputs_witness :
    ∃ r, calculateSubnet (jstr "192.168.001.001") (jstr "/24") = .ok r ∧
      (canonicalIp r.networkAddress = true ∧
       canonicalIp r.broadcastAddress = true ∧
       canonicalIp r.firstHost = true ∧
       canonicalIp r.lastHost = true ∧
       canonicalIp r.wildcardMask = true) := by
  refine ⟨{ networkAddress := jstr "192.168.1.0"
            broadcastAddress := jstr "192.168.1.255"
            firstHost := jstr "192.168.1.1"
            lastHost := jstr "192.168.1.254"
            totalHosts := 256
            usableHosts := 254
            subnetMask := jstr "255.255.255.0"
            wildcardMask := jstr "0.0.0.255"
            binaryIP := jstr "11000000.10101000.00000001.00000001"
            binaryMask := jstr "11111111.11111111.11111111.00000000" },
    by decide, ?_⟩
  exact c10_canonical_outputs.2.2 (jstr "192.168.001.001") (jstr "/24") _ (by decide)

end SubnetLab

namespace SubnetLab

/-! ### C8: increment / decrement -/

theorem digitGroup_255 (p : JStr) (hg : isDigitGroup p = true) (hv : decVal p = 255) :
    p = jstr "255" := by
  have hlen3 := of_decide_eq_true (Bool.and_eq_true_iff.mp (Bool.and_eq_true_iff.mp hg).1).2
  have hdig := List.all_eq_true.mp (Bool.and_eq_true_iff.mp hg).2
  rcases p with _ | ⟨a, _ | ⟨b, _ | ⟨c, _ | ⟨d, t⟩⟩⟩⟩
  · exact absurd rfl (isDigitGroup_ne_nil _ hg)
  · exfalso
    have ha := isDig_bounds (hdig a (by simp))
    have h1 : decVal [a] = 0 * 10 + digitVal a := rfl
    rw [h1] at hv
    unfold digitVal at hv
    omega
  · exfalso
    have ha := isDig_bounds (hdig a (by simp))
    have hb := isDig_bounds (hdig b (by simp))
    have h1 : decVal [a, b] = (0 * 10 + digitVal a) * 10 + digitVal b := rfl
    rw [h1] at hv
    unfold digitVal at hv
    omega
  · have ha := isDig_bounds (hdig a (by simp))
    have hb := isDig_bounds (hdig b (by simp))
    have hc := isDig_bounds (hdig c (by simp))
    have h1 : decVal [a, b, c]
        = ((0 * 10 + digitVal a) * 10 + digitVal b) * 10 + digitVal c := rfl
    rw [h1] at hv
    unfold digitVal at hv
    have ha' : a = '2' := char_eq_of_toNat_eq (by rw [show Char.toNat '2' = 50 from rfl]; omega)
    have hb' : b = '5' := char_eq_of_toNat_eq (by rw [show Char.toNat '5' = 53 from rfl]; omega)
    have hc' : c = '5' := char_eq_of_toNat_eq (by rw [show Char.toNat '5' = 53 from rfl]; omega)
    rw [ha', hb', hc']
    rfl
  · exfalso
    simp only [List.length_cons] at hlen3
    omega

theorem validIP_all255_iff (ip : JStr) (hv : validateIP ip = true) :
    ((splitOnDot ip).map decVal).all (· = 255) = true ↔ ip = jstr "255.255.255.255" := by
  constructor
  · intro h
    obtain ⟨h4, hall⟩ := (validateIP_iff ip).mp hv
    obtain ⟨g1, g2, g3, g4, hsp⟩ := list_len4 _ h4
    have hppp : ∀ g ∈ [g1, g2, g3, g4], g = jstr "255" := by
      intro g hgm
      apply digitGroup_255 g (hall g (hsp ▸ hgm)).1
      have hm : decVal g ∈ (splitOnDot ip).map decVal := by
        rw [hsp]
        exact List.mem_map_of_mem _ hgm
      exact of_decide_eq_true (List.all_eq_true.mp h (decVal g) hm)
    have hsplit : splitOnDot ip = [jstr "255", jstr "255", jstr "255", jstr "255"] := by
      rw [hsp, hppp g1 (by simp), hppp g2 (by simp), hppp g3 (by simp), hppp g4 (by simp)]
    have := joinDot_splitOnDot ip
    rw [hsplit] at this
    rw [← this]
    rfl
  · intro h
    subst h
    decide

theorem incCarry_none_iff (l : List Nat) (hb : ∀ v ∈ l, v ≤ 255) :
    incCarry l = none ↔ l.all (· = 255) = true := by
  induction l with
  | nil => simp [incCarry]
  | cons o rest ih =>
    unfold incCarry
    by_cases ho : o < 255
    · rw [if_pos ho]
      simp only [List.all_cons, Bool.and_eq_true, decide_eq_true_eq]
      constructor
      · intro h; cases h
      · rintro ⟨h, _⟩; omega
    · have ho' : o = 255 := by
        have := hb o (List.mem_cons_self _ _)
        omega
      rw [if_neg ho]
      have ihr := ih (fun v hv => hb v (List.mem_cons_of_mem _ hv))
      simp only [List.all_cons, Bool.and_eq_true, decide_eq_true_eq]
      cases hr : incCarry rest with
      | none =>
        exact ⟨fun _ => ⟨ho', ihr.mp hr⟩, fun _ => rfl⟩
      | some l'' =>
        constructor
        · intro hcc
          exact Option.noConfusion (show some (0 :: l'') = (none : Option (List Nat)) from hcc)
        · rintro ⟨_, hallr⟩
          have := ihr.mpr hallr
          rw [hr] at this
          cases this

theorem ipVal_parts (ip g1 g2 g3 g4 : JStr) (hsp : splitOnDot ip = [g1, g2, g3, g4]) :
    ipVal ip = (((0 * 256 + decVal g1) * 256 + decVal g2) * 256 + decVal g3) * 256
      + decVal g4 := by
  unfold ipVal
  rw [hsp]
  rfl

theorem ipVal_join (vals : List Nat) (hne : vals ≠ []) (hb : ∀ v ∈ vals, v < 256) :
    ipVal (joinDot (vals.map natToDec)) = vals.foldl (fun a o => a * 256 + o) 0 := by
  unfold ipVal
  rw [splitOnDot_joinDot _ (by simpa using hne) ?nodot]
  case nodot =>
    intro p hp
    rw [List.mem_map] at hp
    obtain ⟨v, hv, rfl⟩ := hp
    exact natToDec_no_dot v (hb v hv)
  have hmm : (vals.map natToDec).map decVal = vals := by
    rw [List.map_map]
    have h2 : ∀ v ∈ vals, (decVal ∘ natToDec) v = v :=
      fun v hv => decVal_natToDec v (hb v hv)
    rw [List.map_congr_left h2, List.map_id']
  rw [hmm]

end SubnetLab

namespace SubnetLab

theorem incrementIp_value (ip y : JStr) (hv : validateIP ip = true)
    (h : incrementIp ip = .ok y) : ipVal y = ipVal ip + 1 := by
  obtain ⟨_, l, hic, rfl⟩ := incrementIp_ok_parts ip y h
  obtain ⟨h4, hall⟩ := (validateIP_iff ip).mp hv
  obtain ⟨g1, g2, g3, g4, hsp⟩ := list_len4 _ h4
  have hb1 : decVal g1 ≤ 255 := (hall g1 (by rw [hsp]; simp)).2
  have hb2 : decVal g2 ≤ 255 := (hall g2 (by rw [hsp]; simp)).2
  have hb3 : decVal g3 ≤ 255 := (hall g3 (by rw [hsp]; simp)).2
  have hb4 : decVal g4 ≤ 255 := (hall g4 (by rw [hsp]; simp)).2
  have hrev : ((splitOnDot ip).map decVal).reverse
      = [decVal g4, decVal g3, decVal g2, decVal g1] := by
    rw [hsp]
    rfl
  rw [hrev] at hic
  by_cases h4' : decVal g4 < 255
  · have hicv : incCarry [decVal g4, decVal g3, decVal g2, decVal g1]
        = some [decVal g4 + 1, decVal g3, decVal g2, decVal g1] := by
      unfold incCarry
      rw [if_pos h4']
    rw [hicv] at hic
    injection hic with hic'
    subst hic'
    rw [ipVal_join _ (by simp) (by
      intro v hv'
      simp only [List.mem_reverse, List.mem_cons, List.not_mem_nil, or_false] at hv'
      rcases hv' with rfl | rfl | rfl | rfl <;> omega)]
    rw [ipVal_parts ip g1 g2 g3 g4 hsp]
    simp only [List.reverse_cons, List.reverse_nil, List.nil_append, List.cons_append,
      List.foldl_cons, List.foldl_nil]
    omega
  · by_cases h3' : decVal g3 < 255
    · have hicv : incCarry [decVal g4, decVal g3, decVal g2, decVal g1]
          = some [0, decVal g3 + 1, decVal g2, decVal g1] := by
        unfold incCarry
        rw [if_neg h4']
        unfold incCarry
        rw [if_pos h3']
        rfl
      rw [hicv] at hic
      injection hic with hic'
      subst hic'
      rw [ipVal_join _ (by simp) (by
        intro v hv'
        simp only [List.mem_reverse, List.mem_cons, List.not_mem_nil, or_false] at hv'
        rcases hv' with rfl | rfl | rfl | rfl <;> omega)]
      rw [ipVal_parts ip g1 g2 g3 g4 hsp]
      simp only [List.reverse_cons, List.reverse_nil, List.nil_append, List.cons_append,
        List.foldl_cons, List.foldl_nil]
      omega
    · by_cases h2' : decVal g2 < 255
      · have hicv : incCarry [decVal g4, decVal g3, decVal g2, decVal g1]
            = some [0, 0, decVal g2 + 1, decVal g1] := by
          unfold incCarry
          rw [if_neg h4']
          unfold incCarry
          rw [if_neg h3']
          unfold incCarry
          rw [if_pos h2']
          rfl
        rw [hicv] at hic
        injection hic with hic'
        subst hic'
        rw [ipVal_join _ (by simp) (by
          intro v hv'
          simp only [List.mem_reverse, List.mem_cons, List.not_mem_nil, or_false] at hv'
          rcases hv' with rfl | rfl | rfl | rfl <;> omega)]
        rw [ipVal_parts ip g1 g2 g3 g4 hsp]
        simp only [List.reverse_cons, List.reverse_nil, List.nil_append, List.cons_append,
          List.foldl_cons, List.foldl_nil]
        omega
      · by_cases h1' : decVal g1 < 255
        · have hicv : incCarry [decVal g4, decVal g3, decVal g2, decVal g1]
              = some [0, 0, 0, decVal g1 + 1] := by
            unfold incCarry
            rw [if_neg h4']
            unfold incCarry
            rw [if_neg h3']
            unfold incCarry
            rw [if_neg h2']
            unfold incCarry
            rw [if_pos h1']
            rfl
          rw [hicv] at hic
          injection hic with hic'
          subst hic'
          rw [ipVal_join _ (by simp) (by
            intro v hv'
            simp only [List.mem_reverse, List.mem_cons, List.not_mem_nil, or_false] at hv'
            rcases hv' with rfl | rfl | rfl | rfl <;> omega)]
          rw [ipVal_parts ip g1 g2 g3 g4 hsp]
          simp only [List.reverse_cons, List.reverse_nil, List.nil_append, List.cons_append,
            List.foldl_cons, List.foldl_nil]
          omega
        · exfalso
          have hnn : incCarry [decVal g4, decVal g3, decVal g2, decVal g1] = none := by
            unfold incCarry
            rw [if_neg h4']
            unfold incCarry
            rw [if_neg h3']
            unfold incCarry
            rw [if_neg h2']
            unfold incCarry
            rw [if_neg h1']
            rfl
          rw [hnn] at hic
          cases hic

theorem decrementIp_value (ip y : JStr) (hv : validateIP ip = true)
    (h : decrementIp ip = .ok y) : ipVal y + 1 = ipVal ip := by
  obtain ⟨_, hnz, rfl⟩ := decrementIp_ok_parts ip y h
  obtain ⟨h4, hall⟩ := (validateIP_iff ip).mp hv
  obtain ⟨g1, g2, g3, g4, hsp⟩ := list_len4 _ h4
  have hb1 : decVal g1 ≤ 255 := (hall g1 (by rw [hsp]; simp)).2
  have hb2 : decVal g2 ≤ 255 := (hall g2 (by rw [hsp]; simp)).2
  have hb3 : decVal g3 ≤ 255 := (hall g3 (by rw [hsp]; simp)).2
  have hb4 : decVal g4 ≤ 255 := (hall g4 (by rw [hsp]; simp)).2
  have hrev : ((splitOnDot ip).map decVal).reverse
      = [decVal g4, decVal g3, decVal g2, decVal g1] := by
    rw [hsp]
    rfl
  rw [hrev]
  by_cases hd' : 0 < decVal g4
  · have hdv : decBorrow [decVal g4, decVal g3, decVal g2, decVal g1]
        = [decVal g4 - 1, decVal g3, decVal g2, decVal g1] := by
      unfold decBorrow
      rw [if_pos hd']
    rw [hdv]
    rw [ipVal_join _ (by simp) (by
      intro v hv'
      simp only [List.mem_reverse, List.mem_cons, List.not_mem_nil, or_false] at hv'
      rcases hv' with rfl | rfl | rfl | rfl <;> omega)]
    rw [ipVal_parts ip g1 g2 g3 g4 hsp]
    simp only [List.reverse_cons, List.reverse_nil, List.nil_append, List.cons_append,
      List.foldl_cons, List.foldl_nil]
    omega
  · by_cases hc' : 0 < decVal g3
    · have hdv : decBorrow [decVal g4, decVal g3, decVal g2, decVal g1]
          = [255, decVal g3 - 1, decVal g2, decVal g1] := by
        unfold decBorrow
        rw [if_neg hd']
        unfold decBorrow
        rw [if_pos hc']
      rw [hdv]
      rw [ipVal_join _ (by simp) (by
        intro v hv'
        simp only [List.mem_reverse, List.mem_cons, List.not_mem_nil, or_false] at hv'
        rcases hv' with rfl | rfl | rfl | rfl <;> omega)]
      rw [ipVal_parts ip g1 g2 g3 g4 hsp]
      simp only [List.reverse_cons, List.reverse_nil, List.nil_append, List.cons_append,
        List.foldl_cons, List.foldl_nil]
      omega
    · by_cases hb' : 0 < decVal g2
      · have hdv : decBorrow [decVal g4, decVal g3, decVal g2, decVal g1]
            = [255, 255, decVal g2 - 1, decVal g1] := by
          unfold decBorrow
          rw [if_neg hd']
          unfold decBorrow
          rw [if_neg hc']
          unfold decBorrow
          rw [if_pos hb']
        rw [hdv]
        rw [ipVal_join _ (by simp) (by
          intro v hv'
          simp only [List.mem_reverse, List.mem_cons, List.not_mem_nil, or_false] at hv'
          rcases hv' with rfl | rfl | rfl | rfl <;> omega)]
        rw [ipVal_parts ip g1 g2 g3 g4 hsp]
        simp only [List.reverse_cons, List.reverse_nil, List.nil_append, List.cons_append,
          List.foldl_cons, List.foldl_nil]
        omega
      · by_cases ha' : 0 < decVal g1
        · have hdv : decBorrow [decVal g4, decVal g3, decVal g2, decVal g1]
              = [255, 255, 255, decVal g1 - 1] := by
            unfold decBorrow
            rw [if_neg hd']
            unfold decBorrow
            rw [if_neg hc']
            unfold decBorrow
            rw [if_neg hb']
            unfold decBorrow
            rw [if_pos ha']
          rw [hdv]
          rw [ipVal_join _ (by simp) (by
            intro v hv'
            simp only [List.mem_reverse, List.mem_cons, List.not_mem_nil, or_false] at hv'
            rcases hv' with rfl | rfl | rfl | rfl <;> omega)]
          rw [ipVal_parts ip g1 g2 g3 g4 hsp]
          simp only [List.reverse_cons, List.reverse_nil, List.nil_append, List.cons_append,
            List.foldl_cons, List.foldl_nil]
          omega
        · exfalso
          have hz : ((splitOnDot ip).map decVal).all (· = 0) = true := by
            rw [hsp]
            have e1 : decVal g1 = 0 := by omega
            have e2 : decVal g2 = 0 := by omega
            have e3 : decVal g3 = 0 := by omega
            have e4 : decVal g4 = 0 := by omega
            simp [e1, e2, e3, e4]
          rw [hz] at hnz
          cases hnz

theorem incrementIp_err_iff (ip : JStr) (hv : validateIP ip = true) :
    incrementIp ip = .error .AddressSpaceExhausted ↔
      ((splitOnDot ip).map decVal).all (· = 255) = true := by
  have hb : ∀ v ∈ ((splitOnDot ip).map decVal).reverse, v ≤ 255 := by
    intro v hv'
    rw [List.mem_reverse, List.mem_map] at hv'
    obtain ⟨p, hp, rfl⟩ := hv'
    exact (((validateIP_iff ip).mp hv).2 p hp).2
  have hiff := incCarry_none_iff _ hb
  cases hic : incCarry (((splitOnDot ip).map decVal).reverse) with
  | none =>
    have h2 : incrementIp ip = .error .AddressSpaceExhausted := by
      simp [incrementIp, hv, hic]
    rw [h2]
    refine iff_of_true rfl ?_
    rw [← List.all_reverse]
    exact hiff.mp hic
  | some l =>
    have h2 : incrementIp ip = .ok (joinDot (l.reverse.map natToDec)) := by
      simp [incrementIp, hv, hic]
    rw [h2]
    refine iff_of_false (fun hcc => Except.noConfusion hcc) ?_
    intro hall
    have hcc := hiff.mpr (by rw [List.all_reverse]; exact hall)
    rw [hic] at hcc
    cases hcc

theorem decrementIp_err_iff (ip : JStr) (hv : validateIP ip = true) :
    decrementIp ip = .error .AddressSpaceExhausted ↔
      ((splitOnDot ip).map decVal).all (· = 0) = true := by
  cases hall : ((splitOnDot ip).map decVal).all (· = 0) with
  | true => simp [decrementIp, hv, hall]
  | false => simp [decrementIp, hv, hall]

end SubnetLab

namespace SubnetLab

/-- C8 (counterexample): `"0.0.0.00"` is a valid IP string distinct from
`"0.0.0.0"` (leading-zero spelling of the same address) on which
`decrementIp` also fails with `AddressSpaceExhausted` — so "exactly when
its input is \"0.0.0.0\"" is false at the string level. -/
theorem c8_decrement_counterexample :
    validateIP (jstr "0.0.0.00") = true ∧
      decrementIp (jstr "0.0.0.00") = .error .AddressSpaceExhausted ∧
      jstr "0.0.0.00" ≠ jstr "0.0.0.0" := by
  exact ⟨by decide, by decide, by decide⟩

/-- C8 (amended): on strings rejected by `validateIP` both operations fail
with `InvalidAddress`.  On valid strings: `incrementIp` fails with
`AddressSpaceExhausted` exactly on the string `"255.255.255.255"`;
`decrementIp` fails with `AddressSpaceExhausted` exactly when every octet
has numeric value 0 (the address `0.0.0.0` in any spelling); on every
other valid input they return the address one unit higher (carrying
255→0 rightmost-first) or one unit lower (borrowing 0→255). -/
theorem c8_increment_decrement_amended (ip : JStr) :
    (validateIP ip = false →
      incrementIp ip = .error .InvalidAddress ∧
        decrementIp ip = .error .InvalidAddress) ∧
    (validateIP ip = true →
      (incrementIp ip = .error .AddressSpaceExhausted ↔ ip = jstr "255.255.255.255") ∧
      (decrementIp ip = .error .AddressSpaceExhausted ↔
        ((splitOnDot ip).map decVal).all (· = 0) = true) ∧
      (ip ≠ jstr "255.255.255.255" →
        ∃ y, incrementIp ip = .ok y ∧ ipVal y = ipVal ip + 1) ∧
      (((splitOnDot ip).map decVal).all (· = 0) = false →
        ∃ y, decrementIp ip = .ok y ∧ ipVal y + 1 = ipVal ip)) := by
  constructor
  · intro hv
    exact ⟨by simp [incrementIp, hv], by simp [decrementIp, hv]⟩
  · intro hv
    have hb : ∀ v ∈ ((splitOnDot ip).map decVal).reverse, v ≤ 255 := by
      intro v hv'
      rw [List.mem_reverse, List.mem_map] at hv'
      obtain ⟨p, hp, rfl⟩ := hv'
      exact (((validateIP_iff ip).mp hv).2 p hp).2
    refine ⟨?_, decrementIp_err_iff ip hv, ?_, ?_⟩
    · rw [incrementIp_err_iff ip hv]
      exact validIP_all255_iff ip hv
    · intro hne
      cases hic : incCarry (((splitOnDot ip).map decVal).reverse) with
      | none =>
        exfalso
        have hall := (incCarry_none_iff _ hb).mp hic
        rw [List.all_reverse] at hall
        exact hne ((validIP_all255_iff ip hv).mp hall)
      | some l =>
        have h2 : incrementIp ip = .ok (joinDot (l.reverse.map natToDec)) := by
          simp [incrementIp, hv, hic]
        exact ⟨_, h2, incrementIp_value ip _ hv h2⟩
    · intro hnz
      have h2 : decrementIp ip
          = .ok (joinDot ((decBorrow (((splitOnDot ip).map decVal).reverse)).reverse.map
              natToDec)) := by
        simp [decrementIp, hv, hnz]
      exact ⟨_, h2, decrementIp_value ip _ hv h2⟩

/-- C8 (witness): incrementing `1.2.3.4` succeeds and adds one address
unit. -/
theorem c8_increment_decrement_amended_witness :
    ∃ y, incrementIp (jstr "1.2.3.4") = .ok y ∧
      ipVal y = ipVal (jstr "1.2.3.4") + 1 :=
  ((c8_increment_decrement_amended (jstr "1.2.3.4")).2 (by decide)).2.2.1 (by decide)

end SubnetLab
